import Mathlib

set_option maxRecDepth 20000

/-!
Verification of the in-memory file system emulator (`solution.py`).

The Python program keeps a tree of `Entry` namedtuples
(`name`, `contents`, `type`, `parent`): a directory's `contents` is an
insertion-ordered dict mapping a child's name to the child entry (the key is
always equal to the child's `name` field, at every creation site), a file's
`contents` is the empty string, and `parent` is a back reference used only for
upward traversal.  The embedding below represents

  * an entry as the inductive `Entry` (constructor = the `type` field);
  * a directory's `contents` dict as the ordered list `EList` of children
    (key = name, insertion order preserved; `dictInsert` mirrors dict
    assignment: replace in place when the key exists, append otherwise);
  * the `parent` back reference implicitly: the mutable system is a pair of
    the root entry and the path of names from the root to the current working
    directory (`Sys`), and recursive functions that follow parent pointers in
    Python (`getFullPath`, `pwd`) instead receive the accumulated path.

Stateful methods of `System` become functions `Sys → ... → Sys`; Python's
`InvalidArguments` exception becomes `Except Unit`; `None`-able lookups become
`Option`.  The snapshot file is modeled structurally: the JSON text written by
`System.save` is kept as the ordered association list of path-keyed records it
streams, and `json.load` of that text is modeled by last-occurrence-wins key
lookup (a later duplicate key in a JSON object overwrites the earlier value in
the resulting Python dict, and `System.load` only ever looks keys up).
-/

/- ## Constants (`solution.py` lines 9-25) -/

def DIRECTORY_TYPE : String := "d"

def FILE_TYPE : String := "f"

def PATH_SEPARATOR : String := "/"

def INVALID_COMMAND : String := "Invalid command"

def UNRECOGNIZED_COMMAND : String := "Unrecognized command"

def INVALID_FILE_OR_FOLDER_NAME : String := "Invalid File or Folder Name"

def DIRECTORY_NOT_FOUND : String := "Directory not found"

def DIRECTORY_ALREADY_EXISTS : String := "Directory already exists"

def FILE_ALREADY_EXISTS : String := "File already exists"

def INVALID_PATH : String := "Invalid path"

def QUIT_MESSAGE : String := "quit"

/- ## String helpers (Python `str.strip`, `str.split(sep)`, `str.rstrip`) -/

/-- Characters removed by Python's no-argument `str.strip()` (the ASCII ones;
command lines contain none beyond the space). -/
def isSpaceCh (c : Char) : Bool := c = ' ' || c = '\t' || c = '\n' || c = '\r'

/-- Python `s.strip()`. -/
def pyStrip (s : String) : String :=
  ⟨((s.data.dropWhile isSpaceCh).reverse.dropWhile isSpaceCh).reverse⟩

/-- Python `s.split(sep)` on a list of characters: always at least one group,
adjacent separators produce empty groups. -/
def splitCh (sep : Char) : List Char → List (List Char)
  | [] => [[]]
  | c :: cs =>
    if c = sep then [] :: splitCh sep cs
    else
      match splitCh sep cs with
      | g :: gs => (c :: g) :: gs
      | [] => [[c]]

/-- Python `s.split(sep)` for a one-character separator. -/
def splitStr (sep : Char) (s : String) : List String :=
  (splitCh sep s.data).map (fun l => ⟨l⟩)

/-- Python `path.split('/')`. -/
def splitSep (s : String) : List String := splitStr '/' s

/-- Python `path.rstrip('/')`. -/
def rstripSep (s : String) : String :=
  ⟨(s.data.reverse.dropWhile (fun c => c = '/')).reverse⟩

/-- Python `sep.join(xs)`. -/
def joinWith (sep : String) : List String → String
  | [] => ""
  | [x] => x
  | x :: y :: xs => x ++ sep ++ joinWith sep (y :: xs)

/- ## The entry tree (`Entry` namedtuple, line 27) -/

mutual
inductive Entry : Type where
  | file (name : String) : Entry
  | dir (name : String) (children : EList) : Entry
inductive EList : Type where
  | nil : EList
  | cons (e : Entry) (es : EList) : EList
end

def Entry.name : Entry → String
  | .file n => n
  | .dir n _ => n

def Entry.isDir : Entry → Bool
  | .file _ => false
  | .dir _ _ => true

/-- `contents` of an entry; a file's `contents` is the empty dict for the
purposes of every reachable lookup (Python stores `''`, and no reachable code
path reads a file's contents). -/
def childrenD : Entry → EList
  | .file _ => .nil
  | .dir _ cs => cs

def appendE : EList → EList → EList
  | .nil, ys => ys
  | .cons x xs, ys => .cons x (appendE xs ys)

/-- Dict key lookup `contents[n]` / membership `n in contents`
(first match; keys are unique in every reachable dict). -/
def findChild : EList → String → Option Entry
  | .nil, _ => none
  | .cons c cs, n => if c.name = n then some c else findChild cs n

/-- Replace the (first) entry with the given name, keeping its position. -/
def replaceChild : EList → Entry → EList
  | .nil, _ => .nil
  | .cons c cs, e => if c.name = e.name then .cons e cs else .cons c (replaceChild cs e)

/-- Python dict assignment `d[e.name] = e`: overwrite in place when the key
exists, append otherwise. -/
def dictInsert (cs : EList) (e : Entry) : EList :=
  match findChild cs e.name with
  | some _ => replaceChild cs e
  | none => appendE cs (.cons e .nil)

/-- `True` iff some entry has the given name (`n in contents`). -/
def hasName : EList → String → Bool
  | .nil, _ => false
  | .cons c cs, n => c.name = n || hasName cs n

/-- All child names in insertion order (`'\n'.join(cwd.contents)` joins keys). -/
def namesL : EList → List String
  | .nil => []
  | .cons c cs => c.name :: namesL cs

/-- File child names in insertion order. -/
def fileNames : EList → List String
  | .nil => []
  | .cons c cs => (if c.isDir then [] else [c.name]) ++ fileNames cs

/-- Directory child names in insertion order. -/
def dirNames : EList → List String
  | .nil => []
  | .cons c cs => (if c.isDir then [c.name] else []) ++ dirNames cs

/-- The directory children in insertion order. -/
def dirsPart : EList → EList
  | .nil => .nil
  | .cons c cs => if c.isDir then .cons c (dirsPart cs) else dirsPart cs

/-- The file children in insertion order. -/
def filesPart : EList → EList
  | .nil => .nil
  | .cons c cs => if c.isDir then filesPart cs else .cons c (filesPart cs)

/-- Sibling names are pairwise distinct (dict keys are unique). -/
def nodupNames : EList → Bool
  | .nil => true
  | .cons c cs => !hasName cs c.name && nodupNames cs

/-- The name contains no path separator. -/
def sepFree (s : String) : Bool := !s.data.contains '/'

mutual
/-- Well-formed tree: sibling names unique at every level and every name free
of the path separator (the latter is the amendment hypothesis of the
round-trip claim; `mkdir`/`touch` guarantee uniqueness but not
separator-freedom). -/
def wfE : Entry → Bool
  | .file n => sepFree n
  | .dir n cs => sepFree n && nodupNames cs && wfL cs
def wfL : EList → Bool
  | .nil => true
  | .cons e es => wfE e && wfL es
end

/- ## The system state (`System`, lines 213-270) -/

/-- The mutable state of `System`: the owned root entry and the current
working directory, represented as the path of child names from the root
(the Python `_cwd` is a reference into the tree; following `parent` back
references from it yields exactly `root.name :: cwd`). -/
structure Sys where
  root : Entry
  cwd : List String

mutual
/-- Follow a path of child names down from an entry. -/
def getDir : Entry → List String → Option Entry
  | e, [] => some e
  | .dir _ cs, m :: p => getDirL cs m p
  | .file _, _ :: _ => none
def getDirL : EList → String → List String → Option Entry
  | .nil, _, _ => none
  | .cons c cs, m, p => if c.name = m then getDir c p else getDirL cs m p
end

/-- `System.getCWD()`: the entry the current-directory pointer refers to.
The default is never reached: every reachable `Sys` has a `cwd` path that
resolves to a directory. -/
def cwdEntryD (s : Sys) : Entry := (getDir s.root s.cwd).getD (.dir "" .nil)

/-- `getCWD().contents`. -/
def cwdContents (s : Sys) : EList := childrenD (cwdEntryD s)

mutual
/-- Perform `target.contents[child.name] = child` where `target` is the
directory reached from `e` by the path: rebuild the tree along the path. -/
def insertAt : Entry → List String → Entry → Entry
  | .dir n cs, [], child => .dir n (dictInsert cs child)
  | .dir n cs, m :: p, child => .dir n (insertAtL cs m p child)
  | .file n, _, _ => .file n
def insertAtL : EList → String → List String → Entry → EList
  | .nil, _, _, _ => .nil
  | .cons c cs, m, p, child =>
    if c.name = m then .cons (insertAt c p child) cs
    else .cons c (insertAtL cs m p child)
end

/-- `System.createDir(name)` (line 253): insert a fresh empty directory into
the cwd's contents. -/
def createDir (s : Sys) (name : String) : Sys :=
  ⟨insertAt s.root s.cwd (.dir name .nil), s.cwd⟩

/-- `System.createFile(name)` (line 263). -/
def createFile (s : Sys) (name : String) : Sys :=
  ⟨insertAt s.root s.cwd (.file name), s.cwd⟩

/-- `System.changeDir(name)` (lines 256-261): `..` moves to the parent when
one exists (the root, path `[]`, has none), any other name re-points the cwd
at the child of that name (all callers check existence first). -/
def changeDir (s : Sys) (name : String) : Sys :=
  if name = ".." then { s with cwd := s.cwd.dropLast }
  else { s with cwd := s.cwd ++ [name] }

/- ## Command layer -/

/-- `QuitCommand.run` (lines 46-53); `save()` writes the snapshot file and
changes no in-memory state. -/
def quitRun (args : List String) (s : Sys) : Except Unit (String × Sys) :=
  match args with
  | [] => .ok (QUIT_MESSAGE, s)
  | _ => .error ()

/-- `PwdCommand.run` (lines 56-68): walk `parent` references from the cwd to
the root, prepending each name; with the path representation the collected
names are `root.name :: cwd`. -/
def pwdRun (args : List String) (s : Sys) : Except Unit (String × Sys) :=
  match args with
  | [] => .ok (PATH_SEPARATOR ++ joinWith PATH_SEPARATOR (s.root.name :: s.cwd), s)
  | _ => .error ()

/-- `LsCommand._validate_args` (lines 74-95): remove an optional `-r`, then an
optional `-mf` which must leave exactly one argument, the path
(right-stripped of separators); anything left over is invalid. -/
def lsValidate (args : List String) : Except Unit (Bool × Bool × String) :=
  let recursive := args.contains "-r"
  let args1 := args.erase "-r"
  if args1.contains "-mf" then
    match args1.erase "-mf" with
    | [p] => .ok (recursive, true, rstripSep p)
    | _ => .error ()
  else if args1.length > 0 then .error ()
  else .ok (recursive, false, "")

/-- The `-mf` walk of `LsCommand.run` (lines 112-118): each segment must be an
existing directory child of the local walking pointer; note `..` is not
special here. -/
def lsMfWalk : Entry → List String → Option Entry
  | cwd, [] => some cwd
  | cwd, d :: ds =>
    match cwd with
    | .dir _ cs =>
      match findChild cs d with
      | some c => if c.isDir then lsMfWalk c ds else none
      | none => none
    | .file _ => none

/-- The single pass of `_visit` over a directory's contents (lines 102-107):
file names are appended to the result in order while directory entries are
collected into `dirs` in order. -/
def visitPass : EList → List String × EList
  | .nil => ([], .nil)
  | .cons e es =>
    let r := visitPass es
    if e.isDir then (r.1, .cons e r.2) else (e.name :: r.1, r.2)

mutual
/-- `_visit` of `LsCommand.run` (lines 100-109): emit the separator-prefixed
label, then the file names collected by the pass, then the recursion on each
collected directory with its name appended to the label.  Traversing the
collected directories equals traversing the children skipping files, which
keeps the recursion structural. -/
def lsVisit : List String → Entry → List String
  | fullPath, .dir _ cs =>
    (PATH_SEPARATOR ++ joinWith PATH_SEPARATOR fullPath) :: (visitPass cs).1
      ++ lsVisitDirs fullPath cs
  | _, .file _ => []
def lsVisitDirs : List String → EList → List String
  | _, .nil => []
  | fullPath, .cons e es =>
    (if e.isDir then lsVisit (fullPath ++ [e.name]) e else [])
      ++ lsVisitDirs fullPath es
end

/-- `LsCommand.run` (lines 97-127). -/
def lsRun (args : List String) (s : Sys) : Except Unit (String × Sys) :=
  match lsValidate args with
  | .error e => .error e
  | .ok (recursive, mf, path) =>
    let cwd0 := cwdEntryD s
    match (if mf then lsMfWalk cwd0 (splitSep path) else some cwd0) with
    | none => .ok (DIRECTORY_NOT_FOUND, s)
    | some cwd =>
      if recursive then .ok (joinWith "\n" (lsVisit [cwd.name] cwd), s)
      else .ok (joinWith "\n" (namesL (childrenD cwd)), s)

/-- `MkdirCommand.run` (lines 130-148). -/
def mkdirRun (args : List String) (s : Sys) : Except Unit (String × Sys) :=
  match args with
  | [name] =>
    if name.length > 100 then .ok (INVALID_FILE_OR_FOLDER_NAME, s)
    else
      match findChild (cwdContents s) name with
      | some c =>
        if c.isDir then .ok (DIRECTORY_ALREADY_EXISTS, s)
        else .ok (FILE_ALREADY_EXISTS, s)
      | none => .ok ("", createDir s name)
  | _ => .error ()

/-- `CdCommand._validate_args` (lines 152-165). -/
def cdValidate (args : List String) : Except Unit (Bool × String) :=
  let mf := args.contains "-mf"
  let args1 := args.erase "-mf"
  match args1 with
  | [p] => .ok (mf, rstripSep p)
  | _ => .error ()

/-- `_change_dir` of `CdCommand.run` (lines 170-183): `..` always succeeds
(clamped at the root by `changeDir`); any other segment succeeds only when it
names an existing directory child, and on failure the system is untouched.
The returned flag is `_change_dir`'s boolean result. -/
def cdStep (s : Sys) (d : String) : Bool × Sys :=
  if d = ".." then (true, changeDir s d)
  else
    match findChild (cwdContents s) d with
    | some c => if c.isDir then (true, changeDir s d) else (false, s)
    | none => (false, s)

/-- The `-mf` loop of `CdCommand.run` (lines 185-189): each successful segment
is committed to the system before the next is examined; the first failing
segment aborts with `Invalid path`, keeping whatever was already committed. -/
def cdMfLoop : Sys → List String → String × Sys
  | s, [] => ("", s)
  | s, d :: ds =>
    match cdStep s d with
    | (true, s1) => cdMfLoop s1 ds
    | (false, s1) => (INVALID_PATH, s1)

/-- `CdCommand.run` (lines 167-194). -/
def cdRun (args : List String) (s : Sys) : Except Unit (String × Sys) :=
  match cdValidate args with
  | .error e => .error e
  | .ok (mf, path) =>
    if mf then .ok (cdMfLoop s (splitSep path))
    else
      match cdStep s path with
      | (true, s1) => .ok ("", s1)
      | (false, s1) => .ok (DIRECTORY_NOT_FOUND, s1)

/-- `TouchCommand.run` (lines 197-210). -/
def touchRun (args : List String) (s : Sys) : Except Unit (String × Sys) :=
  match args with
  | [name] =>
    if name.length > 100 then .ok (INVALID_FILE_OR_FOLDER_NAME, s)
    else
      match findChild (cwdContents s) name with
      | some _ => .ok ("", s)
      | none => .ok ("", createFile s name)
  | _ => .error ()

/-- Dispatch of `System.runCommand` (lines 238-248) on the split word list. -/
def dispatch : List String → Sys → String × Sys
  | [], s => (UNRECOGNIZED_COMMAND, s)
  | cmd :: args, s =>
    let r : Except Unit (String × Sys) :=
      if cmd = "quit" then quitRun args s
      else if cmd = "pwd" then pwdRun args s
      else if cmd = "ls" then lsRun args s
      else if cmd = "mkdir" then mkdirRun args s
      else if cmd = "cd" then cdRun args s
      else if cmd = "touch" then touchRun args s
      else .ok (UNRECOGNIZED_COMMAND, s)
    match r with
    | .ok p => p
    | .error _ => (INVALID_COMMAND, s)

/-- `System.runCommand(commandLine)`: strip the line, split on single spaces,
dispatch on the first word; `InvalidArguments` becomes `Invalid command`. -/
def runCommand (line : String) (s : Sys) : String × Sys :=
  dispatch (splitStr ' ' (pyStrip line)) s

/-- Run a list of command lines in order, keeping only the state. -/
def runList : List String → Sys → Sys
  | [], s => s
  | l :: ls, s => runList ls (runCommand l s).2

/-- The state of a freshly constructed persistence-free system
(`System.__init__` with `state_file_name=None`). -/
def emptySys : Sys := ⟨.dir "root" .nil, []⟩

/- ## Snapshot codec (`System.save` lines 300-355, `System.load` lines 272-298) -/

/-- One serialized directory record `{ "dirs": [...], "files": [...] }`:
the pair (dirs, files). -/
abbrev DirRec := List String × List String

/-- The record `System.save` emits for a directory with the given contents:
one pass over the dict collects directory names and file names in order. -/
def recOf (cs : EList) : DirRec := (dirNames cs, fileNames cs)

mutual
/-- `_save_entry` (lines 320-345), modeled structurally: the streamed JSON
text is kept as the ordered association list of `(full path, record)` pairs it
writes.  `getFullPath(entry)` (parent-pointer walk) is the accumulated key.
A file contributes nothing; a directory contributes its own record followed by
the blocks of its directory children in insertion order (the Python loop
collects the directory entries while building the record, then recurses on
each; traversing the children skipping files is the same iteration). -/
def saveEntry : String → Entry → List (String × DirRec)
  | _, .file _ => []
  | path, .dir _ cs => (path, recOf cs) :: saveChildren path cs
def saveChildren : String → EList → List (String × DirRec)
  | _, .nil => []
  | path, .cons e es =>
    (if e.isDir then saveEntry (path ++ PATH_SEPARATOR ++ e.name) e else [])
      ++ saveChildren path es
end

/-- `System.save` starting from the root (key = the root's name). -/
def saveSys (s : Sys) : List (String × DirRec) := saveEntry s.root.name s.root

/-- The JSON values `System.load` can meet after `json.load`: objects, arrays
and strings (numbers never arise in the shapes the claims are about). -/
inductive JVal : Type where
  | obj (kvs : List (String × JVal)) : JVal
  | arr (elems : List JVal) : JVal
  | str (s : String) : JVal

/-- Lookup in a parsed JSON object.  `json.load` builds a Python dict in which
a later duplicate key overwrites the earlier value, and `System.load` only
ever looks keys up, so the object is kept as the raw pair list and lookup
takes the last occurrence. -/
def kvsGet : List (String × JVal) → String → Option JVal
  | [], _ => none
  | (k1, v) :: rest, k =>
    match kvsGet rest k with
    | some r => some r
    | none => if k1 = k then some v else none

/-- `state[k]`: a `KeyError` (key absent) or `TypeError` (not a dict) becomes
`none`, which the `except` in `System.load` turns into an abandoned load. -/
def jField : JVal → String → Option JVal
  | .obj kvs, k => kvsGet kvs k
  | _, _ => none

/-- Read a JSON array of strings as a name list (the only shape the snapshot
codec produces and the claims exercise). -/
def strElems : List JVal → Option (List String)
  | [] => some []
  | .str s :: rest => (strElems rest).map (fun l => s :: l)
  | _ :: _ => none

def jStrList : JVal → Option (List String)
  | .arr es => strElems es
  | _ => none

mutual
/-- `_load_dir_entry` (lines 280-291): rebuild a directory from its record,
files first then directory children, each child's record looked up in the
global state under `full_path + '/' + name`; any failure (`none`) abandons the
whole load.  The `fuel` argument only bounds the recursion depth (Python
recurses on strictly longer keys of a finite dict, so it always terminates);
every theorem below supplies enough fuel for the recursion to complete. -/
def loadDir (st : JVal) : Nat → String → String → JVal → Option Entry
  | 0, _, _, _ => none
  | fuel + 1, fullPath, name, slzed =>
    match jField slzed "files" with
    | none => none
    | some filesJ =>
      match jStrList filesJ with
      | none => none
      | some files =>
        match jField slzed "dirs" with
        | none => none
        | some dirsJ =>
          match jStrList dirsJ with
          | none => none
          | some dirs =>
            let cs0 := files.foldl (fun cs fn => dictInsert cs (.file fn)) .nil
            match loadDirs st fuel fullPath dirs cs0 with
            | none => none
            | some cs => some (.dir name cs)
def loadDirs (st : JVal) : Nat → String → List String → EList → Option EList
  | 0, _, _, _ => none
  | _ + 1, _, [], acc => some acc
  | fuel + 1, fullPath, dn :: rest, acc =>
    match jField st (fullPath ++ PATH_SEPARATOR ++ dn) with
    | none => none
    | some slzed =>
      match loadDir st fuel (fullPath ++ PATH_SEPARATOR ++ dn) dn slzed with
      | none => none
      | some child => loadDirs st fuel fullPath rest (dictInsert acc child)
end

mutual
/-- Fuel sufficient to load this entry (one unit per call). -/
def needE : Entry → Nat
  | .file _ => 1
  | .dir _ cs => needL cs + 1
def needL : EList → Nat
  | .nil => 1
  | .cons e es => if e.isDir then max (needE e) (needL es) + 1 else needL es
end

/-- Fuel `systemLoad` passes to `loadDir`; large enough for any state a save
produced (proved below: `needE` of a saved tree is at most three per record). -/
def loadFuel : JVal → Nat
  | .obj kvs => 3 * kvs.length + 3
  | _ => 3

/-- What opening and `json.load`-ing the state file yields. -/
inductive FileRead : Type where
  | missing : FileRead
  | unparseable : FileRead
  | parsed (j : JVal) : FileRead

/-- Outcome of `System.load` as observed by `System.__init__`. -/
inductive InitResult : Type where
  | raised : InitResult
  | empty : InitResult
  | ok (root : Entry) : InitResult

/-- `System.load` (lines 272-298).  `open(self._state_file_name, 'r')` stands
OUTSIDE the `try`, so a missing or unreadable file raises out of `load` (and
out of the constructor); every failure after the `try` begins — an unparseable
file, a missing `root` key, a wrongly shaped record, a missing referenced
child record — is caught and reported as `False`, i.e. start empty. -/
def systemLoad : FileRead → InitResult
  | .missing => .raised
  | .unparseable => .empty
  | .parsed st =>
    match jField st "root" with
    | none => .empty
    | some rootJ =>
      match loadDir st (loadFuel st) "root" "root" rootJ with
      | none => .empty
      | some r => .ok r

/-- `System.__init__` (lines 216-227): `none` argument = no persistence;
result `none` = the constructor raised. -/
def systemInit : Option FileRead → Option Sys
  | none => some emptySys
  | some fr =>
    match systemLoad fr with
    | .raised => none
    | .empty => some emptySys
    | .ok r => some ⟨r, []⟩

/-- The JSON value `json.load` produces from the text `System.save` wrote for
this record. -/
def encodeRec (r : DirRec) : JVal :=
  .obj [("dirs", .arr (r.1.map JVal.str)), ("files", .arr (r.2.map JVal.str))]

/-- The JSON value `json.load` produces from a whole saved state. -/
def encodeState (l : List (String × DirRec)) : JVal :=
  .obj (l.map (fun kr => (kr.1, encodeRec kr.2)))

/-- Last-occurrence-wins lookup on the structural save list (what `kvsGet`
computes on its encoding). -/
def stateGet : List (String × DirRec) → String → Option DirRec
  | [], _ => none
  | (k1, v) :: rest, k =>
    match stateGet rest k with
    | some r => some r
    | none => if k1 = k then some v else none

/- ## Definitions following the specification's words -/

/-- The directory child of this exact name (resolution of a non-`..` segment
per the spec: the child must exist and be a directory). -/
def findDir (cs : EList) (n : String) : Option Entry :=
  match findChild cs n with
  | some c => if c.isDir then some c else none
  | none => none

/-- Follow directory children by name (the directory at a relative path). -/
def dirAt : Entry → List String → Option Entry
  | e, [] => some e
  | e, m :: q =>
    match e with
    | .dir _ cs =>
      match findDir cs m with
      | some d => dirAt d q
      | none => none
    | .file _ => none

/-- The key under which a strictly deeper directory is saved: the base path
followed by the separator-joined relative segments. -/
def joinRel (p : String) (q : List String) : String :=
  p ++ PATH_SEPARATOR ++ joinWith PATH_SEPARATOR q

mutual
/-- The tree a successful load of a saved tree reconstructs: per directory,
the file children first (insertion order), then the directory children
(insertion order), recursively regrouped. -/
def regroupE : Entry → Entry
  | .file n => .file n
  | .dir n cs => .dir n (appendE (filesPart cs) (regroupDirs cs))
def regroupDirs : EList → EList
  | .nil => .nil
  | .cons e es => if e.isDir then .cons (regroupE e) (regroupDirs es) else regroupDirs es
end

mutual
/-- Modelled from the spec (§4.3 Listing Engine), for the refinement claim:
"emit the absolute-or-relative label of the directory (prefixed with the path
separator), then every direct file child name (in insertion order), then
recurse into every direct directory child (in insertion order) applying the
same rule", the label accumulating by appending the visited directory's own
name. -/
def lsRecSpec : List String → Entry → List String
  | label, .dir _ cs =>
    (PATH_SEPARATOR ++ joinWith PATH_SEPARATOR label) :: fileNames cs
      ++ specKids label cs
  | _, .file _ => []
def specKids : List String → EList → List String
  | _, .nil => []
  | label, .cons e es =>
    (match e with
     | .dir _ _ => lsRecSpec (label ++ [e.name]) e
     | .file _ => []) ++ specKids label es
end

/-- The all-or-nothing walk along `cd` steps (the spec's resolver that commits
only after full success); used to state where a failed `cd -mf` actually
leaves the system. -/
def walkSegs : Sys → List String → Option Sys
  | s, [] => some s
  | s, d :: ds =>
    match cdStep s d with
    | (true, s1) => walkSegs s1 ds
    | (false, _) => none

/-- The tree `root/a/b` that the command list `mkdir a; cd a; mkdir b` builds
(used by several concrete counterexamples). -/
def cexTree : Entry := .dir "root" (.cons (.dir "a" (.cons (.dir "b" .nil) .nil)) .nil)

/-- The tree built by `mkdir a; cd a; mkdir b; cd b; mkdir c; cd -mf ../..;
mkdir a/b`: the literal name `a/b` makes two directories share the snapshot
key `root/a/b`. -/
def slashTree : Entry :=
  .dir "root" (.cons (.dir "a" (.cons (.dir "b" (.cons (.dir "c" .nil) .nil)) .nil))
    (.cons (.dir "a/b" .nil) .nil))

/-- A 101-character name (too long for `mkdir`/`touch`, but loadable from a
snapshot). -/
def over100Name : String :=
  "n0000000000000000000000000000000000000000000000000000000000000000000000000000000000000000000000000000"

/-- A system whose root contains a file with the 101-character name, as
`System(state_file_name)` builds it from a snapshot. -/
def over100Sys : Sys := ⟨.dir "root" (.cons (.file over100Name) .nil), []⟩

/- ## Helper lemmas about the children list -/

theorem elistInd {motive : EList → Prop} (hnil : motive .nil)
    (hcons : ∀ e es, motive es → motive (.cons e es)) : ∀ l, motive l
  | .nil => hnil
  | .cons e es => hcons e es (elistInd hnil hcons es)

mutual
theorem entryInd {mE : Entry → Prop} {mL : EList → Prop}
    (hfile : ∀ n, mE (.file n)) (hdir : ∀ n cs, mL cs → mE (.dir n cs))
    (hnil : mL .nil) (hcons : ∀ e es, mE e → mL es → mL (.cons e es)) : ∀ e, mE e
  | .file n => hfile n
  | .dir n cs => hdir n cs (elistIndM hfile hdir hnil hcons cs)
theorem elistIndM {mE : Entry → Prop} {mL : EList → Prop}
    (hfile : ∀ n, mE (.file n)) (hdir : ∀ n cs, mL cs → mE (.dir n cs))
    (hnil : mL .nil) (hcons : ∀ e es, mE e → mL es → mL (.cons e es)) : ∀ l, mL l
  | .nil => hnil
  | .cons e es =>
    hcons e es (entryInd hfile hdir hnil hcons e) (elistIndM hfile hdir hnil hcons es)
end

theorem appendE_nil (xs : EList) : appendE xs .nil = xs := by
  induction xs using elistInd with
  | hnil => rfl
  | hcons x xs ih => simp [appendE, ih]

theorem appendE_assoc (a b c : EList) : appendE (appendE a b) c = appendE a (appendE b c) := by
  induction a using elistInd with
  | hnil => rfl
  | hcons x xs ih => simp [appendE, ih]

theorem hasName_appendE (a b : EList) (n : String) :
    hasName (appendE a b) n = (hasName a n || hasName b n) := by
  induction a using elistInd with
  | hnil => simp [appendE, hasName]
  | hcons x xs ih => simp [appendE, hasName, ih, Bool.or_assoc]

theorem hasName_eq_findChild_isSome (cs : EList) (n : String) :
    hasName cs n = (findChild cs n).isSome := by
  induction cs using elistInd with
  | hnil => rfl
  | hcons c cs ih =>
      by_cases hc : c.name = n <;> simp [hasName, findChild, hc, ih]

theorem findChild_none_of_not_hasName (cs : EList) (n : String) (h : hasName cs n = false) :
    findChild cs n = none := by
  rw [hasName_eq_findChild_isSome] at h
  cases hf : findChild cs n with
  | none => rfl
  | some c => rw [hf] at h; simp at h

theorem findChild_name (cs : EList) (n : String) (c : Entry) (h : findChild cs n = some c) :
    c.name = n := by
  induction cs using elistInd with
  | hnil => simp [findChild] at h
  | hcons x xs ih =>
      by_cases hx : x.name = n
      · simp [findChild, hx] at h; rw [← h]; exact hx
      · simp [findChild, hx] at h; exact ih h

theorem findChild_appendE (a b : EList) (n : String) :
    findChild (appendE a b) n =
      match findChild a n with
      | some c => some c
      | none => findChild b n := by
  induction a using elistInd with
  | hnil => simp [appendE, findChild]
  | hcons x xs ih => by_cases hx : x.name = n <;> simp [appendE, findChild, hx, ih]

theorem dictInsert_of_not_hasName (cs : EList) (e : Entry) (h : hasName cs e.name = false) :
    dictInsert cs e = appendE cs (.cons e .nil) := by
  simp [dictInsert, findChild_none_of_not_hasName cs e.name h]

theorem findChild_replaceChild_self (cs : EList) (e : Entry) (c : Entry)
    (h : findChild cs e.name = some c) : findChild (replaceChild cs e) e.name = some e := by
  induction cs using elistInd with
  | hnil => simp [findChild] at h
  | hcons x xs ih =>
      by_cases hx : x.name = e.name
      · simp [replaceChild, hx, findChild]
      · simp [findChild, hx] at h
        simp [replaceChild, hx, findChild, ih h]

theorem findChild_dictInsert_self (cs : EList) (e : Entry) :
    findChild (dictInsert cs e) e.name = some e := by
  cases h : findChild cs e.name with
  | some c => simp [dictInsert, h, findChild_replaceChild_self cs e c h]
  | none => simp [dictInsert, h, findChild_appendE, findChild]

/- ## Reading back through an update at the cwd path -/

theorem insertAt_name (e : Entry) (p : List String) (child : Entry) :
    (insertAt e p child).name = e.name := by
  cases e <;> cases p <;> rfl

mutual
theorem getDir_insertAt (e : Entry) (p : List String) (child : Entry) (m : String) (cs : EList)
    (h : getDir e p = some (.dir m cs)) :
    getDir (insertAt e p child) p = some (.dir m (dictInsert cs child)) := by
  cases p with
  | nil =>
      have he : e = .dir m cs := by simpa [getDir] using h
      subst he
      simp [insertAt, getDir]
  | cons x p =>
      cases e with
      | file n => simp [getDir] at h
      | dir n cs0 =>
          simp only [getDir] at h
          simpa only [insertAt, getDir] using getDirL_insertAtL cs0 x p child m cs h
theorem getDirL_insertAtL (l : EList) (x : String) (p : List String) (child : Entry)
    (m : String) (cs : EList) (h : getDirL l x p = some (.dir m cs)) :
    getDirL (insertAtL l x p child) x p = some (.dir m (dictInsert cs child)) := by
  cases l with
  | nil => simp [getDirL] at h
  | cons c cs0 =>
      by_cases hc : c.name = x
      · simp only [getDirL, hc, if_true] at h
        simp only [insertAtL, hc, if_true, getDirL, insertAt_name]
        exact getDir_insertAt c p child m cs h
      · simp only [getDirL, hc, if_false, ite_false] at h
        simp only [insertAtL, hc, if_false, ite_false, getDirL]
        exact getDirL_insertAtL cs0 x p child m cs h
end

theorem cwdContents_eq (s : Sys) (m : String) (cs : EList)
    (h : getDir s.root s.cwd = some (.dir m cs)) : cwdContents s = cs := by
  simp [cwdContents, cwdEntryD, h, childrenD]

theorem getDir_createFile (s : Sys) (n m : String) (cs : EList)
    (h : getDir s.root s.cwd = some (.dir m cs)) :
    getDir (createFile s n).root (createFile s n).cwd
      = some (.dir m (dictInsert cs (.file n))) := by
  simpa [createFile] using getDir_insertAt s.root s.cwd (.file n) m cs h

theorem getDir_createDir (s : Sys) (n m : String) (cs : EList)
    (h : getDir s.root s.cwd = some (.dir m cs)) :
    getDir (createDir s n).root (createDir s n).cwd
      = some (.dir m (dictInsert cs (.dir n .nil))) := by
  simpa [createDir] using getDir_insertAt s.root s.cwd (.dir n .nil) m cs h

/- ## Claims about touch and mkdir -/

/-- C7: for every name of at most 100 characters, `touch` of a name already
present in the current directory (as a file or as a directory) is a no-op
returning no output, and after any `touch` of that name a second identical
`touch` leaves the state exactly as the first left it — an existing entry of
either kind is never overwritten. -/
theorem c7_touch_idempotent (s : Sys) (n m : String) (cs : EList)
    (hc : getDir s.root s.cwd = some (.dir m cs)) (hlen : n.length ≤ 100) :
    ((findChild cs n).isSome → touchRun [n] s = .ok ("", s)) ∧
    (∀ out s1, touchRun [n] s = .ok (out, s1) → touchRun [n] s1 = .ok ("", s1)) := by
  have hct : cwdContents s = cs := cwdContents_eq s m cs hc
  have hlen2 : ¬ n.length > 100 := by omega
  constructor
  · intro hsome
    cases hf : findChild cs n with
    | none => rw [hf] at hsome; simp at hsome
    | some c => simp [touchRun, hlen2, hct, hf]
  · intro out s1 hrun
    cases hf : findChild cs n with
    | some c =>
        have h1 : touchRun [n] s = .ok ("", s) := by simp [touchRun, hlen2, hct, hf]
        rw [h1] at hrun
        simp only [Except.ok.injEq, Prod.mk.injEq] at hrun
        rw [← hrun.2]
        exact h1
    | none =>
        have h1 : touchRun [n] s = .ok ("", createFile s n) := by
          simp [touchRun, hlen2, hct, hf]
        rw [h1] at hrun
        simp only [Except.ok.injEq, Prod.mk.injEq] at hrun
        rw [← hrun.2]
        have hg2 := getDir_createFile s n m cs hc
        have hct2 : cwdContents (createFile s n) = dictInsert cs (.file n) :=
          cwdContents_eq _ m _ hg2
        have hfs : findChild (dictInsert cs (.file n)) n = some (.file n) :=
          findChild_dictInsert_self cs (.file n)
        simp [touchRun, hlen2, hct2, hfs]

/-- C7 witness: a concrete run of the idempotence theorem. -/
theorem c7_touch_idempotent_witness :
    touchRun ["f"] (⟨.dir "root" (.cons (.file "f") .nil), []⟩ : Sys)
      = .ok ("", (⟨.dir "root" (.cons (.file "f") .nil), []⟩ : Sys)) :=
  (c7_touch_idempotent ⟨.dir "root" (.cons (.file "f") .nil), []⟩ "f" "root"
    (.cons (.file "f") .nil) rfl (by decide)).1 (by decide)

/-- C8 (amended): `mkdir` of a name already present among the current
directory's direct children never overwrites or creates a second entry
(the state is returned unchanged), and — provided the name is within the
100-character limit, as every name the creation commands accept is — it
returns `Directory already exists` when the existing entry is a directory and
`File already exists` when it is a file.  (For an over-limit existing name,
possible only via a snapshot load, the length check fires first: see the
counterexample.) -/
theorem c8_mkdir_collision (s : Sys) (n m : String) (cs : EList) (c : Entry)
    (hc : getDir s.root s.cwd = some (.dir m cs)) (hlen : n.length ≤ 100)
    (hf : findChild cs n = some c) :
    mkdirRun [n] s =
      .ok ((if c.isDir then DIRECTORY_ALREADY_EXISTS else FILE_ALREADY_EXISTS), s) := by
  have hct := cwdContents_eq s m cs hc
  have hlen2 : ¬ n.length > 100 := by omega
  cases hd : c.isDir <;> simp [mkdirRun, hlen2, hct, hf, hd]

/-- C8 witness: concrete collisions of both kinds. -/
theorem c8_mkdir_collision_witness :
    mkdirRun ["d"] (⟨.dir "root" (.cons (.dir "d" .nil) (.cons (.file "f") .nil)), []⟩ : Sys)
      = .ok (DIRECTORY_ALREADY_EXISTS,
          (⟨.dir "root" (.cons (.dir "d" .nil) (.cons (.file "f") .nil)), []⟩ : Sys)) ∧
    mkdirRun ["f"] (⟨.dir "root" (.cons (.dir "d" .nil) (.cons (.file "f") .nil)), []⟩ : Sys)
      = .ok (FILE_ALREADY_EXISTS,
          (⟨.dir "root" (.cons (.dir "d" .nil) (.cons (.file "f") .nil)), []⟩ : Sys)) :=
  ⟨(c8_mkdir_collision ⟨.dir "root" (.cons (.dir "d" .nil) (.cons (.file "f") .nil)), []⟩
      "d" "root" (.cons (.dir "d" .nil) (.cons (.file "f") .nil)) (.dir "d" .nil)
      rfl (by decide) rfl).trans (by rfl),
   (c8_mkdir_collision ⟨.dir "root" (.cons (.dir "d" .nil) (.cons (.file "f") .nil)), []⟩
      "f" "root" (.cons (.dir "d" .nil) (.cons (.file "f") .nil)) (.file "f")
      rfl (by decide) rfl).trans (by rfl)⟩

/-- C8 counterexample: a 101-character file name is loadable from a snapshot,
and `mkdir` of that already-present name then answers
`Invalid File or Folder Name` (the length check precedes the collision
check), not the kind-specific collision message the claim requires for every
present name. -/
theorem c8_counterexample :
    systemInit (some (.parsed (.obj [("root",
        .obj [("dirs", .arr []), ("files", .arr [.str over100Name])])])))
      = some over100Sys ∧
    findChild (cwdContents over100Sys) over100Name = some (.file over100Name) ∧
    mkdirRun [over100Name] over100Sys = .ok (INVALID_FILE_OR_FOLDER_NAME, over100Sys) ∧
    INVALID_FILE_OR_FOLDER_NAME ≠ DIRECTORY_ALREADY_EXISTS ∧
    INVALID_FILE_OR_FOLDER_NAME ≠ FILE_ALREADY_EXISTS :=
  ⟨rfl, rfl, rfl, by decide, by decide⟩

/-- C10: `mkdir` and `touch` validate their single argument only for length:
any name of at most 100 characters not yet present — the separator-containing
`a/b` and the token `..` included — is accepted, and the command appends
exactly one direct child to the current directory whose literal name is the
whole token. -/
theorem c10_literal_names (s : Sys) (n m : String) (cs : EList)
    (hc : getDir s.root s.cwd = some (.dir m cs)) (hlen : n.length ≤ 100)
    (habs : findChild cs n = none) :
    (mkdirRun [n] s = .ok ("", createDir s n) ∧
      getDir (createDir s n).root (createDir s n).cwd
        = some (.dir m (appendE cs (.cons (.dir n .nil) .nil)))) ∧
    (touchRun [n] s = .ok ("", createFile s n) ∧
      getDir (createFile s n).root (createFile s n).cwd
        = some (.dir m (appendE cs (.cons (.file n) .nil)))) := by
  have hct := cwdContents_eq s m cs hc
  have hlen2 : ¬ n.length > 100 := by omega
  have hhn : hasName cs n = false := by
    rw [hasName_eq_findChild_isSome, habs]; rfl
  refine ⟨⟨by simp [mkdirRun, hlen2, hct, habs], ?_⟩,
          ⟨by simp [touchRun, hlen2, hct, habs], ?_⟩⟩
  · have := getDir_createDir s n m cs hc
    rwa [dictInsert_of_not_hasName cs (.dir n .nil) hhn] at this
  · have := getDir_createFile s n m cs hc
    rwa [dictInsert_of_not_hasName cs (.file n) hhn] at this

/-- C10 witness: `mkdir a/b` and `touch ..` on the empty system. -/
theorem c10_literal_names_witness :
    mkdirRun ["a/b"] emptySys = .ok ("", createDir emptySys "a/b") ∧
    getDir (createDir emptySys "a/b").root (createDir emptySys "a/b").cwd
      = some (.dir "root" (.cons (.dir "a/b" .nil) .nil)) ∧
    touchRun [".."] emptySys = .ok ("", createFile emptySys "..") :=
  ⟨(c10_literal_names emptySys "a/b" "root" .nil rfl (by decide) rfl).1.1,
   (c10_literal_names emptySys "a/b" "root" .nil rfl (by decide) rfl).1.2,
   (c10_literal_names emptySys ".." "root" .nil rfl (by decide) rfl).2.1⟩

/- ## Claim about snapshot loading -/

/-- C2 (code-bug evidence): with persistence enabled, a missing or unreadable
state file makes the constructor raise (`open` stands outside the `try` in
`System.load`), while every failure inside the `try` — unparseable contents,
a missing `root` key, a wrongly shaped state, a directory record referencing
a child with no record — is swallowed and the system starts with an empty
root. -/
theorem c2_load_outcomes :
    systemInit (some .missing) = none ∧
    systemInit (some .unparseable) = some emptySys ∧
    systemInit (some (.parsed (.arr []))) = some emptySys ∧
    systemInit (some (.parsed (.obj []))) = some emptySys ∧
    systemInit (some (.parsed (.obj [("root",
      .obj [("dirs", .arr [.str "dir"]), ("files", .arr [.str "file"])])])))
      = some emptySys :=
  ⟨rfl, rfl, rfl, rfl, rfl⟩

/- ## Claim about the ls frame -/

theorem lsRun_state (args : List String) (s : Sys) (out : String) (s1 : Sys)
    (h : lsRun args s = .ok (out, s1)) : s1 = s := by
  unfold lsRun at h
  cases hv : lsValidate args with
  | error e => rw [hv] at h; cases h
  | ok t =>
      obtain ⟨recursive, mf, path⟩ := t
      rw [hv] at h
      simp only at h
      cases hw : (if mf then lsMfWalk (cwdEntryD s) (splitSep path) else some (cwdEntryD s)) with
      | none =>
          rw [hw] at h
          simp only [Except.ok.injEq, Prod.mk.injEq] at h
          exact h.2.symm
      | some cwd =>
          rw [hw] at h
          cases recursive <;>
            simp only [Bool.false_eq_true, if_false, if_true, ite_false, ite_true,
              Except.ok.injEq, Prod.mk.injEq] at h <;>
            exact h.2.symm

/-- C9: running `ls` — flat, recursive, with or without an `-mf` path, whether
it succeeds, fails to resolve, or is malformed — never changes the system:
its multi-segment walk happens on a local pointer and is never committed, so
both the tree and the current-directory pointer are exactly what they were. -/
theorem c9_ls_pure : ∀ (args : List String) (s : Sys),
    (match lsRun args s with
     | .ok (_, s1) => s1
     | .error _ => s) = s ∧
    ∀ rest, (dispatch ("ls" :: rest) s).2 = s := by
  intro args s
  constructor
  · cases h : lsRun args s with
    | error e => rfl
    | ok p =>
        obtain ⟨out, s1⟩ := p
        exact lsRun_state args s out s1 h
  · intro rest
    cases h : lsRun rest s with
    | error e => simp [dispatch, h]
    | ok p =>
        obtain ⟨out, s1⟩ := p
        have hs := lsRun_state rest s out s1 h
        simp [dispatch, h, hs]

/- ## Claims about path resolution -/

/-- Every failing `_change_dir` leaves the system untouched. -/
theorem cdStep_false (s : Sys) (d : String) (h : (cdStep s d).1 = false) :
    cdStep s d = (false, s) := by
  unfold cdStep at h ⊢
  split at h
  · simp at h
  · split at h
    · split at h
      · simp at h
      · simp_all
    · simp_all

/-- C4 counterexample: in an `ls -mf` path the segment `..` is looked up as a
literal child name, so from `/root/a` (reachable by the commands shown)
`ls -mf ..` answers `Directory not found` instead of listing the parent. -/
theorem c4_counterexample :
    (runList ["mkdir a", "cd a", "mkdir b"] emptySys = ⟨cexTree, ["a"]⟩) ∧
    (runCommand "ls -mf .." (⟨cexTree, ["a"]⟩ : Sys)).1 = DIRECTORY_NOT_FOUND ∧
    DIRECTORY_NOT_FOUND ≠ "" :=
  ⟨rfl, rfl, by decide⟩

/-- C4 (amended): in single-segment `cd` and in every segment of a `cd -mf`
path, `..` moves to the parent directory — staying put, without error, when
already at the root; in an `ls -mf` path, however, `..` is not special: it is
looked up as a literal child name and resolution fails when no directory
child named `..` exists. -/
theorem c4_dotdot :
    (∀ s : Sys, cdStep s ".." = (true, ⟨s.root, s.cwd.dropLast⟩)) ∧
    (∀ s : Sys, s.cwd = [] → cdStep s ".." = (true, s)) ∧
    (∀ (n : String) (cs : EList) (ds : List String),
      findChild cs ".." = none → lsMfWalk (.dir n cs) (".." :: ds) = none) := by
  refine ⟨fun s => by cases s; rfl, fun s h => ?_, fun n cs ds h => by simp [lsMfWalk, h]⟩
  cases s
  subst h
  rfl

/-- C4 witness: `cd ..` at the root stays at the root; `ls -mf ..` fails on a
directory with no child named `..`. -/
theorem c4_dotdot_witness :
    cdStep emptySys ".." = (true, emptySys) ∧
    lsMfWalk (.dir "a" .nil) [".."] = none :=
  ⟨c4_dotdot.2.1 emptySys rfl, c4_dotdot.2.2 "a" .nil [] rfl⟩

theorem rstripSep_append (p : String) : rstripSep (p ++ "/") = rstripSep p := by
  simp only [rstripSep, String.data_append]
  rw [List.reverse_append]
  simp [List.dropWhile]

theorem append_sep_ne (p q : String) (h : q.data.getLast? ≠ some '/') : p ++ "/" ≠ q := by
  intro he
  apply h
  rw [← he, String.data_append]
  simp

theorem cdValidate_mf (p : String) : cdValidate ["-mf", p] = .ok (true, rstripSep p) := rfl

theorem lsValidate_mf (p : String) (hp : p ≠ "-r") :
    lsValidate ["-mf", p] = .ok (false, true, rstripSep p) := by
  have hb : (p == "-r") = false := by simpa using hp
  have hb2 : ("-r" == p) = false := by
    rw [beq_eq_false_iff_ne]
    exact fun h => hp h.symm
  simp [lsValidate, List.contains, List.elem, hb, hb2, List.erase]

/-- C3 counterexample: with the tree `root/a/b` (reachable by the commands
shown), the doubled separator in `a//b` produces an empty segment that makes
resolution fail — `cd -mf` answers `Invalid path` and `ls -mf` answers
`Directory not found` — although the path without it resolves fine. -/
theorem c3_counterexample :
    (runList ["mkdir a", "cd a", "mkdir b", "cd .."] emptySys = ⟨cexTree, []⟩) ∧
    (runCommand "cd -mf a//b" (⟨cexTree, []⟩ : Sys)).1 = INVALID_PATH ∧
    (runCommand "ls -mf a//b" (⟨cexTree, []⟩ : Sys)).1 = DIRECTORY_NOT_FOUND ∧
    (runCommand "cd -mf a/b" (⟨cexTree, []⟩ : Sys)).1 = "" :=
  ⟨rfl, rfl, rfl, rfl⟩

/-- C3 (amended): trailing separators on a `cd -mf` or `ls -mf` path are
tolerated — they are stripped before the path is split — but an empty segment
produced by a doubled separator elsewhere is not skipped: it is looked up as
a literal child name, and since no command can create a directory with the
empty name, resolution fails there. -/
theorem c3_empty_segments :
    (∀ (p : String) (s : Sys), cdRun ["-mf", p ++ "/"] s = cdRun ["-mf", p] s) ∧
    (∀ (p : String) (s : Sys), p ≠ "-r" → lsRun ["-mf", p ++ "/"] s = lsRun ["-mf", p] s) ∧
    (∀ (s : Sys) (m : String) (cs : EList), getDir s.root s.cwd = some (.dir m cs) →
      findChild cs "" = none → cdStep s "" = (false, s)) ∧
    (∀ (n : String) (cs : EList) (ds : List String), findChild cs "" = none →
      lsMfWalk (.dir n cs) ("" :: ds) = none) := by
  refine ⟨fun p s => ?_, fun p s hp => ?_, fun s m cs hg hf => ?_, fun n cs ds hf => ?_⟩
  · simp [cdRun, cdValidate_mf, rstripSep_append]
  · have hp2 : p ++ "/" ≠ "-r" := append_sep_ne p "-r" (by decide)
    simp [lsRun, lsValidate_mf _ hp, lsValidate_mf _ hp2, rstripSep_append]
  · have hct := cwdContents_eq s m cs hg
    simp [cdStep, hct, hf]
  · simp [lsMfWalk, hf]

/-- C3 witness: concrete instances of the amended statements. -/
theorem c3_empty_segments_witness :
    cdRun ["-mf", "a" ++ "/"] emptySys = cdRun ["-mf", "a"] emptySys ∧
    lsRun ["-mf", "a" ++ "/"] emptySys = lsRun ["-mf", "a"] emptySys ∧
    cdStep emptySys "" = (false, emptySys) ∧
    lsMfWalk (.dir "root" .nil) ["", "b"] = none :=
  ⟨c3_empty_segments.1 "a" emptySys,
   c3_empty_segments.2.1 "a" emptySys (by decide),
   c3_empty_segments.2.2.1 emptySys "root" .nil rfl rfl,
   c3_empty_segments.2.2.2 "root" .nil ["b"] rfl⟩

theorem cdMfLoop_fail (pre : List String) (d : String) (rest : List String) :
    ∀ (s s1 : Sys), walkSegs s pre = some s1 → (cdStep s1 d).1 = false →
    cdMfLoop s (pre ++ d :: rest) = (INVALID_PATH, s1) := by
  induction pre with
  | nil =>
      intro s s1 hw hf
      have hs : s = s1 := by simpa [walkSegs] using hw
      subst hs
      simp [cdMfLoop, cdStep_false s d hf]
  | cons x pre ih =>
      intro s s1 hw hf
      simp only [walkSegs] at hw
      cases hx : cdStep s x with
      | mk b s2 =>
          rw [hx] at hw
          cases b with
          | false => simp at hw
          | true =>
              simp only [List.cons_append, cdMfLoop, hx]
              exact ih s2 s1 hw hf

/-- C1 counterexample: from the root of the tree `root/a/b` (reachable by the
commands shown), `cd -mf a/nonexistent` fails at its second segment yet
leaves the current-directory pointer at `/root/a` — not at the starting
location `/root`. -/
theorem c1_counterexample :
    (runList ["mkdir a", "cd a", "mkdir b", "cd .."] emptySys = ⟨cexTree, []⟩) ∧
    runCommand "cd -mf a/nonexistent" (⟨cexTree, []⟩ : Sys)
      = (INVALID_PATH, ⟨cexTree, ["a"]⟩) ∧
    (["a"] : List String) ≠ [] :=
  ⟨rfl, rfl, by decide⟩

/-- C1 (amended): `cd -mf` commits every successful segment to the system
immediately, so when resolution fails at some segment the command returns
`Invalid path` with the current-directory pointer at the directory reached by
the successfully resolved prefix of segments — unchanged only when the very
first segment fails. -/
theorem c1_partial_commit (s s1 : Sys) (path : String) (pre : List String) (d : String)
    (rest : List String) (hsplit : splitSep (rstripSep path) = pre ++ d :: rest)
    (hpre : walkSegs s pre = some s1) (hfail : (cdStep s1 d).1 = false) :
    cdRun ["-mf", path] s = .ok (INVALID_PATH, s1) := by
  simp [cdRun, cdValidate_mf, hsplit, cdMfLoop_fail pre d rest s s1 hpre hfail]

/-- C1 witness: the amended statement at the concrete failing path. -/
theorem c1_partial_commit_witness :
    cdRun ["-mf", "a/nonexistent"] (⟨cexTree, []⟩ : Sys)
      = .ok (INVALID_PATH, ⟨cexTree, ["a"]⟩) ∧
    (⟨cexTree, ["a"]⟩ : Sys).cwd ≠ (⟨cexTree, []⟩ : Sys).cwd :=
  ⟨c1_partial_commit ⟨cexTree, []⟩ ⟨cexTree, ["a"]⟩ "a/nonexistent" ["a"] "nonexistent" []
      rfl rfl rfl,
   by decide⟩

/- ## Claim about the recursive listing -/

theorem visitPass_fst (cs : EList) : (visitPass cs).1 = fileNames cs := by
  induction cs using elistInd with
  | hnil => rfl
  | hcons e es ih => cases he : e.isDir <;> simp [visitPass, fileNames, he, ih]

mutual
theorem lsVisit_eq_spec (label : List String) (e : Entry) :
    lsVisit label e = lsRecSpec label e := by
  cases e with
  | file n => rfl
  | dir n cs =>
      simp only [lsVisit, lsRecSpec, visitPass_fst]
      rw [lsVisitDirs_eq_spec label cs]
theorem lsVisitDirs_eq_spec (label : List String) (cs : EList) :
    lsVisitDirs label cs = specKids label cs := by
  cases cs with
  | nil => rfl
  | cons e es =>
      cases e with
      | file n => simp [lsVisitDirs, specKids, Entry.isDir, lsVisitDirs_eq_spec label es]
      | dir n cs2 =>
          simp only [lsVisitDirs, specKids, Entry.isDir, if_true]
          rw [lsVisit_eq_spec (label ++ [Entry.name (.dir n cs2)]) (.dir n cs2),
            lsVisitDirs_eq_spec label es]
end

theorem lsValidate_r_mf (p : String) :
    lsValidate ["-r", "-mf", p] = .ok (true, true, rstripSep p) := rfl

/-- C6: the recursive listing emits, for every directory, the
separator-prefixed label, then every direct file child name in insertion
order, then the recursion into every direct directory child in insertion
order with the child's name appended to the label — files at every level all
precede any subdirectory descent, regardless of creation order; and when the
listing starts from an `-mf` jump target, the label begins fresh at that
directory's own name. -/
theorem c6_recursive_listing :
    (∀ (label : List String) (e : Entry), lsVisit label e = lsRecSpec label e) ∧
    (∀ (s : Sys) (path : String) (target : Entry),
      lsMfWalk (cwdEntryD s) (splitSep (rstripSep path)) = some target →
      lsRun ["-r", "-mf", path] s
        = .ok (joinWith "\n" (lsRecSpec [target.name] target), s)) := by
  refine ⟨lsVisit_eq_spec, fun s path target hw => ?_⟩
  simp [lsRun, lsValidate_r_mf, hw, lsVisit_eq_spec]

/-- C6 witness: a jump-target recursive listing with a fresh label, files
first. -/
theorem c6_recursive_listing_witness :
    lsRun ["-r", "-mf", "a"]
      (⟨.dir "root" (.cons (.dir "a" (.cons (.file "f1") (.cons (.dir "b" .nil) .nil))) .nil),
        []⟩ : Sys)
      = .ok ("/a\nf1\n/a/b",
          (⟨.dir "root" (.cons (.dir "a" (.cons (.file "f1") (.cons (.dir "b" .nil) .nil))) .nil),
            []⟩ : Sys)) :=
  (c6_recursive_listing.2
    ⟨.dir "root" (.cons (.dir "a" (.cons (.file "f1") (.cons (.dir "b" .nil) .nil))) .nil), []⟩
    "a" (.dir "a" (.cons (.file "f1") (.cons (.dir "b" .nil) .nil))) rfl).trans (by rfl)

/- ## Round trip: joined-path and key-string lemmas -/

theorem joinWith_cons_of_ne_nil (sep m : String) (q : List String) (hq : q ≠ []) :
    joinWith sep (m :: q) = m ++ sep ++ joinWith sep q := by
  cases q with
  | nil => exact absurd rfl hq
  | cons y ys => rfl

theorem joinRel_single (p m : String) : joinRel p [m] = p ++ PATH_SEPARATOR ++ m := rfl

theorem joinRel_cons (p m : String) (q : List String) (hq : q ≠ []) :
    joinRel p (m :: q) = joinRel (p ++ PATH_SEPARATOR ++ m) q := by
  show p ++ PATH_SEPARATOR ++ joinWith PATH_SEPARATOR (m :: q)
    = p ++ "/" ++ m ++ PATH_SEPARATOR ++ joinWith PATH_SEPARATOR q
  rw [joinWith_cons_of_ne_nil PATH_SEPARATOR m q hq]
  simp only [String.append_assoc]
  rfl

theorem append_extend_ne (p x : String) : p ++ "/" ++ x ≠ p := by
  intro h
  have hl := congrArg String.length h
  have h1 : ("/" : String).length = 1 := rfl
  simp [String.length_append, h1] at hl
  omega

theorem joinRel_ne_base (p : String) (q : List String) : joinRel p q ≠ p :=
  append_extend_ne p (joinWith PATH_SEPARATOR q)

theorem append_left_cancel_str (p a b : String) (h : p ++ a = p ++ b) : a = b := by
  apply String.ext
  have hd := congrArg String.data h
  simp only [String.data_append] at hd
  exact List.append_cancel_left hd

theorem sepFree_not_mem (s : String) (h : sepFree s = true) : '/' ∉ s.data := by
  simpa [sepFree] using h

theorem sep_head_unique : ∀ (a b t1 t2 : List Char),
    '/' ∉ a → '/' ∉ b →
    (t1 = [] ∨ ∃ r, t1 = '/' :: r) → (t2 = [] ∨ ∃ r, t2 = '/' :: r) →
    a ++ t1 = b ++ t2 → a = b
  | [], [], t1, t2, _, _, _, _, _ => rfl
  | [], c :: bs, t1, t2, _, hb, h1, _, he => by
      exfalso
      simp only [List.nil_append, List.cons_append] at he
      cases h1 with
      | inl h => rw [h] at he; cases he
      | inr h =>
          obtain ⟨r, hr⟩ := h
          rw [hr] at he
          injection he with hh _
          exact hb (hh ▸ List.mem_cons_self c bs)
  | a0 :: as, [], t1, t2, ha, _, _, h2, he => by
      exfalso
      simp only [List.nil_append, List.cons_append] at he
      cases h2 with
      | inl h => rw [h] at he; cases he
      | inr h =>
          obtain ⟨r, hr⟩ := h
          rw [hr] at he
          injection he with hh _
          exact ha (hh ▸ List.mem_cons_self a0 as)
  | a0 :: as, c :: bs, t1, t2, ha, hb, h1, h2, he => by
      simp only [List.cons_append] at he
      injection he with hh ht
      subst hh
      have := sep_head_unique as bs t1 t2 (fun hm => ha (List.mem_cons_of_mem _ hm))
        (fun hm => hb (List.mem_cons_of_mem _ hm)) h1 h2 ht
      rw [this]

theorem seg_eq_of_key_eq (m w x y : String)
    (hm : sepFree m = true) (hw : sepFree w = true)
    (hx : x = "" ∨ ∃ r, x = "/" ++ r) (hy : y = "" ∨ ∃ r, y = "/" ++ r)
    (he : m ++ x = w ++ y) : m = w := by
  apply String.ext
  have hd := congrArg String.data he
  simp only [String.data_append] at hd
  refine sep_head_unique m.data w.data x.data y.data (sepFree_not_mem m hm)
    (sepFree_not_mem w hw) ?_ ?_ hd
  · cases hx with
    | inl h => exact Or.inl (by rw [h])
    | inr h =>
        obtain ⟨r, hr⟩ := h
        exact Or.inr ⟨r.data, by rw [hr, String.data_append]; rfl⟩
  · cases hy with
    | inl h => exact Or.inl (by rw [h])
    | inr h =>
        obtain ⟨r, hr⟩ := h
        exact Or.inr ⟨r.data, by rw [hr, String.data_append]; rfl⟩

theorem joinWith_head (m : String) (q : List String) :
    joinWith PATH_SEPARATOR (m :: q) = m ++ "" ∨
    joinWith PATH_SEPARATOR (m :: q) = m ++ ("/" ++ joinWith PATH_SEPARATOR q) := by
  cases q with
  | nil =>
      left
      show m = m ++ ""
      rw [String.append_empty]
  | cons y ys =>
      right
      show m ++ PATH_SEPARATOR ++ joinWith PATH_SEPARATOR (y :: ys)
        = m ++ ("/" ++ joinWith PATH_SEPARATOR (y :: ys))
      rw [String.append_assoc]
      rfl

/-- The central key-disjointness fact: a key below `p/m` is never a key of
the save block rooted at `p/w` when `m ≠ w` and both names are
separator-free. -/
theorem key_not_in_block (p w m : String) (q : List String)
    (hw : sepFree w = true) (hm : sepFree m = true) (hne : m ≠ w)
    (hshape : joinRel p (m :: q) = p ++ "/" ++ w ∨
      ∃ suf, joinRel p (m :: q) = p ++ "/" ++ w ++ "/" ++ suf) : False := by
  have hjm := joinWith_head m q
  apply hne
  cases hshape with
  | inl h =>
      have hcanc : joinWith PATH_SEPARATOR (m :: q) = w :=
        append_left_cancel_str (p ++ "/") _ _ h
      cases hjm with
      | inl hx =>
          refine seg_eq_of_key_eq m w "" "" hm hw (Or.inl rfl) (Or.inl rfl) ?_
          rw [← hx, hcanc, String.append_empty]
      | inr hx =>
          refine seg_eq_of_key_eq m w ("/" ++ joinWith PATH_SEPARATOR q) "" hm hw
            (Or.inr ⟨_, rfl⟩) (Or.inl rfl) ?_
          rw [← hx, hcanc, String.append_empty]
  | inr h =>
      obtain ⟨suf, hsuf⟩ := h
      have hassoc : p ++ "/" ++ w ++ "/" ++ suf = p ++ "/" ++ (w ++ ("/" ++ suf)) := by
        simp [String.append_assoc]
      have hcanc : joinWith PATH_SEPARATOR (m :: q) = w ++ ("/" ++ suf) :=
        append_left_cancel_str (p ++ "/") _ _ (hsuf.trans hassoc)
      cases hjm with
      | inl hx =>
          refine seg_eq_of_key_eq m w "" ("/" ++ suf) hm hw (Or.inl rfl)
            (Or.inr ⟨_, rfl⟩) ?_
          rw [← hx, hcanc]
      | inr hx =>
          refine seg_eq_of_key_eq m w ("/" ++ joinWith PATH_SEPARATOR q) ("/" ++ suf) hm hw
            (Or.inr ⟨_, rfl⟩) (Or.inr ⟨_, rfl⟩) ?_
          rw [← hx, hcanc]

/- ## Round trip: the regrouped tree lists identically -/

theorem regroupE_name (e : Entry) : (regroupE e).name = e.name := by
  cases e <;> rfl

theorem regroupE_isDir (e : Entry) : (regroupE e).isDir = e.isDir := by
  cases e <;> rfl

theorem fileNames_appendE (a b : EList) :
    fileNames (appendE a b) = fileNames a ++ fileNames b := by
  induction a using elistInd with
  | hnil => simp [appendE, fileNames]
  | hcons e es ih => cases he : e.isDir <;> simp [appendE, fileNames, he, ih]

theorem fileNames_filesPart (cs : EList) : fileNames (filesPart cs) = fileNames cs := by
  induction cs using elistInd with
  | hnil => rfl
  | hcons e es ih => cases he : e.isDir <;> simp [filesPart, fileNames, he, ih]

theorem fileNames_regroupDirs (cs : EList) : fileNames (regroupDirs cs) = [] := by
  induction cs using elistInd with
  | hnil => rfl
  | hcons e es ih =>
      cases e with
      | file n => simp [regroupDirs, Entry.isDir, ih]
      | dir n cs2 => simp [regroupDirs, Entry.isDir, fileNames, regroupE, ih]

theorem lsVisitDirs_appendE (label : List String) (a b : EList) :
    lsVisitDirs label (appendE a b) = lsVisitDirs label a ++ lsVisitDirs label b := by
  induction a using elistInd with
  | hnil => simp [appendE, lsVisitDirs]
  | hcons e es ih => simp [appendE, lsVisitDirs, ih]

theorem lsVisitDirs_filesPart (label : List String) (cs : EList) :
    lsVisitDirs label (filesPart cs) = [] := by
  induction cs using elistInd with
  | hnil => rfl
  | hcons e es ih => cases he : e.isDir <;> simp [filesPart, lsVisitDirs, he, ih]

mutual
theorem lsVisit_regroup (label : List String) (e : Entry) :
    lsVisit label (regroupE e) = lsVisit label e := by
  cases e with
  | file n => rfl
  | dir n cs =>
      simp only [regroupE, lsVisit, visitPass_fst]
      rw [fileNames_appendE, fileNames_filesPart, fileNames_regroupDirs,
        lsVisitDirs_appendE, lsVisitDirs_filesPart, lsVisitDirs_regroup label cs]
      simp
theorem lsVisitDirs_regroup (label : List String) (cs : EList) :
    lsVisitDirs label (regroupDirs cs) = lsVisitDirs label cs := by
  cases cs with
  | nil => rfl
  | cons e es =>
      cases e with
      | file n => simp [regroupDirs, lsVisitDirs, Entry.isDir, lsVisitDirs_regroup label es]
      | dir n cs2 =>
          simp only [regroupDirs, Entry.isDir, if_true, lsVisitDirs, regroupE_isDir,
            regroupE_name]
          rw [lsVisit_regroup (label ++ [Entry.name (Entry.dir n cs2)]) (.dir n cs2),
            lsVisitDirs_regroup label es]
          simp [regroupE, Entry.isDir]
end

/- ## Round trip: looking up keys in a saved state -/

theorem stateGet_append (A B : List (String × DirRec)) (k : String) :
    stateGet (A ++ B) k =
      match stateGet B k with
      | some r => some r
      | none => stateGet A k := by
  induction A with
  | nil =>
      rw [List.nil_append]
      cases h : stateGet B k <;> simp [h, stateGet]
  | cons x A ih =>
      obtain ⟨k1, v⟩ := x
      simp only [List.cons_append, stateGet]
      cases hB : stateGet B k with
      | some r => simp [ih, hB]
      | none => cases hA : stateGet A k <;> simp [ih, hB, hA]

theorem nodupNames_parts (e : Entry) (es : EList) (h : nodupNames (.cons e es) = true) :
    hasName es e.name = false ∧ nodupNames es = true := by
  simpa [nodupNames] using h

theorem wfL_parts (e : Entry) (es : EList) (h : wfL (.cons e es) = true) :
    wfE e = true ∧ wfL es = true := by
  simpa [wfL] using h

theorem wfE_dir_parts (n : String) (cs : EList) (h : wfE (.dir n cs) = true) :
    sepFree n = true ∧ nodupNames cs = true ∧ wfL cs = true := by
  simp [wfE] at h
  exact ⟨h.1.1, h.1.2, h.2⟩

theorem findDir_cons_dir_self (n : String) (cs2 es : EList) :
    findDir (.cons (.dir n cs2) es) n = some (.dir n cs2) := by
  simp [findDir, findChild, Entry.name, Entry.isDir]

theorem findDir_cons_ne (e : Entry) (es : EList) (m : String) (h : ¬ e.name = m) :
    findDir (.cons e es) m = findDir es m := by
  simp [findDir, findChild, h]

theorem findDir_none_of_not_hasName (cs : EList) (m : String) (h : hasName cs m = false) :
    findDir cs m = none := by
  simp [findDir, findChild_none_of_not_hasName cs m h]

theorem findDir_cons_file (n : String) (es : EList) :
    findDir (.cons (.file n) es) n = none := by
  simp [findDir, findChild, Entry.name, Entry.isDir]

mutual
theorem saveEntry_key_shape (e : Entry) (p k : String) (r : DirRec)
    (h : stateGet (saveEntry p e) k = some r) :
    k = p ∨ ∃ suf, k = p ++ "/" ++ suf := by
  cases e with
  | file n => simp [saveEntry, stateGet] at h
  | dir n cs =>
      simp only [saveEntry, stateGet] at h
      cases hs : stateGet (saveChildren p cs) k with
      | some r2 => exact Or.inr (saveChildren_key_shape cs p k r2 hs)
      | none =>
          rw [hs] at h
          by_cases hk : p = k
          · exact Or.inl hk.symm
          · simp [hk] at h
theorem saveChildren_key_shape (cs : EList) (p k : String) (r : DirRec)
    (h : stateGet (saveChildren p cs) k = some r) :
    ∃ suf, k = p ++ "/" ++ suf := by
  cases cs with
  | nil => simp [saveChildren, stateGet] at h
  | cons e es =>
      simp only [saveChildren] at h
      rw [stateGet_append] at h
      cases hs : stateGet (saveChildren p es) k with
      | some r2 => exact saveChildren_key_shape es p k r2 hs
      | none =>
          rw [hs] at h
          cases e with
          | file nf => simp [Entry.isDir, stateGet] at h
          | dir w csw =>
              simp only [Entry.isDir, if_true] at h
              cases saveEntry_key_shape (.dir w csw) (p ++ PATH_SEPARATOR ++ Entry.name (.dir w csw)) k r h with
              | inl h2 => exact ⟨w, h2⟩
              | inr h2 =>
                  obtain ⟨suf, hsuf⟩ := h2
                  refine ⟨w ++ "/" ++ suf, ?_⟩
                  rw [hsuf]
                  simp [String.append_assoc, PATH_SEPARATOR, Entry.name]
end

theorem saveEntry_get_base (n : String) (cs : EList) (p : String) :
    stateGet (saveEntry p (.dir n cs)) p = some (recOf cs) := by
  simp only [saveEntry, stateGet]
  cases hs : stateGet (saveChildren p cs) p with
  | some r =>
      exfalso
      obtain ⟨suf, hsuf⟩ := saveChildren_key_shape cs p p r hs
      exact append_extend_ne p suf hsuf.symm
  | none => simp

mutual
theorem saveEntry_get_below (e : Entry) (p : String) (hwf : wfE e = true)
    (hd : e.isDir = true) (m : String) (q : List String)
    (hm : sepFree m = true) (hq : ∀ x ∈ q, sepFree x = true) :
    stateGet (saveEntry p e) (joinRel p (m :: q))
      = (dirAt e (m :: q)).map (fun d => recOf (childrenD d)) := by
  cases e with
  | file nf => simp [Entry.isDir] at hd
  | dir n cs =>
      show stateGet (saveEntry p (.dir n cs)) (joinRel p (m :: q))
        = (match findDir cs m with
           | some d => dirAt d q
           | none => none).map (fun d => recOf (childrenD d))
      obtain ⟨hsn, hnd, hwl⟩ := wfE_dir_parts n cs hwf
      have hKne : ¬ p = joinRel p (m :: q) := fun hh => joinRel_ne_base p (m :: q) hh.symm
      simp only [saveEntry, stateGet]
      rw [saveChildren_get cs p hnd hwl m q hm hq]
      cases hx : (match findDir cs m with
         | some d => dirAt d q
         | none => none).map (fun d => recOf (childrenD d)) with
      | some r => rfl
      | none => simp [hKne]
theorem saveChildren_get (cs : EList) (p : String)
    (hnd : nodupNames cs = true) (hwl : wfL cs = true) (m : String) (q : List String)
    (hm : sepFree m = true) (hq : ∀ x ∈ q, sepFree x = true) :
    stateGet (saveChildren p cs) (joinRel p (m :: q))
      = (match findDir cs m with
         | some d => dirAt d q
         | none => none).map (fun d => recOf (childrenD d)) := by
  cases cs with
  | nil => simp [saveChildren, stateGet, findDir, findChild]
  | cons e es =>
      have hph := nodupNames_parts e es hnd
      have hwp := wfL_parts e es hwl
      have hes := saveChildren_get es p hph.2 hwp.2 m q hm hq
      cases e with
      | file nf =>
          simp only [saveChildren, Entry.isDir, Bool.false_eq_true, if_false, ite_false,
            List.nil_append]
          rw [hes]
          by_cases hme : nf = m
          · have h1 : findDir es m = none := by
              apply findDir_none_of_not_hasName
              rw [← hme]
              exact hph.1
            have h2 : findDir (EList.cons (.file nf) es) m = none := by
              rw [← hme]; exact findDir_cons_file nf es
            rw [h1, h2]
          · rw [findDir_cons_ne (.file nf) es m hme]
      | dir w csw =>
          simp only [saveChildren, Entry.isDir, Entry.name, if_true, ite_true]
          rw [stateGet_append]
          by_cases hme : w = m
          · subst hme
            have h1 : findDir es w = none := findDir_none_of_not_hasName es w hph.1
            simp only [h1, Option.map_none'] at hes
            rw [hes]
            cases q with
            | nil =>
                rw [findDir_cons_dir_self w csw es]
                exact saveEntry_get_base w csw (p ++ PATH_SEPARATOR ++ w)
            | cons m2 q2 =>
                rw [findDir_cons_dir_self w csw es]
                have hm2 : sepFree m2 = true := hq m2 (List.mem_cons_self m2 q2)
                have hq2 : ∀ x ∈ q2, sepFree x = true :=
                  fun x hx => hq x (List.mem_cons_of_mem m2 hx)
                rw [joinRel_cons p w (m2 :: q2) (List.cons_ne_nil m2 q2)]
                exact saveEntry_get_below (.dir w csw) (p ++ PATH_SEPARATOR ++ w) hwp.1
                  rfl m2 q2 hm2 hq2
          · rw [findDir_cons_ne (.dir w csw) es m hme]
            cases hx : stateGet (saveChildren p es) (joinRel p (m :: q)) with
            | some r =>
                rw [hx] at hes
                exact hes
            | none =>
                rw [hx] at hes
                have hsw : sepFree w = true := (wfE_dir_parts w csw hwp.1).1
                have hblock : stateGet (saveEntry (p ++ PATH_SEPARATOR ++ w) (.dir w csw))
                    (joinRel p (m :: q)) = none := by
                  cases hb : stateGet (saveEntry (p ++ PATH_SEPARATOR ++ w) (.dir w csw))
                      (joinRel p (m :: q)) with
                  | none => rfl
                  | some r =>
                      exfalso
                      have hsh := saveEntry_key_shape (.dir w csw) (p ++ PATH_SEPARATOR ++ w)
                        (joinRel p (m :: q)) r hb
                      exact key_not_in_block p w m q hsw hm (fun hmw => hme hmw.symm) hsh
                rw [hblock]
                exact hes
end

/- ## Round trip: reading the encoded snapshot back -/

theorem kvsGet_encode (l : List (String × DirRec)) (k : String) :
    kvsGet (l.map (fun kr => (kr.1, encodeRec kr.2))) k = (stateGet l k).map encodeRec := by
  induction l with
  | nil => rfl
  | cons x l ih =>
      obtain ⟨k1, v⟩ := x
      simp only [List.map_cons, kvsGet, stateGet]
      cases hs : stateGet l k with
      | some r => simp [ih, hs]
      | none =>
          rw [ih, hs]
          by_cases hk : k1 = k <;> simp [hk]

theorem jField_encodeState (l : List (String × DirRec)) (k : String) :
    jField (encodeState l) k = (stateGet l k).map encodeRec := kvsGet_encode l k

theorem strElems_map (l : List String) : strElems (l.map JVal.str) = some l := by
  induction l with
  | nil => rfl
  | cons x l ih => simp [strElems, ih]

theorem jField_encodeRec_dirs (r : DirRec) :
    jField (encodeRec r) "dirs" = some (.arr (r.1.map JVal.str)) := rfl

theorem jField_encodeRec_files (r : DirRec) :
    jField (encodeRec r) "files" = some (.arr (r.2.map JVal.str)) := rfl

theorem hasName_filesPart_imp (cs : EList) (x : String)
    (h : hasName (filesPart cs) x = true) : hasName cs x = true := by
  induction cs using elistInd with
  | hnil => simpa [filesPart] using h
  | hcons e es ih =>
      cases he : e.isDir with
      | true =>
          rw [filesPart] at h
          rw [he] at h
          simp only [if_true, ite_true] at h
          simp [hasName, ih h]
      | false =>
          rw [filesPart] at h
          rw [he] at h
          simp only [Bool.false_eq_true, if_false, ite_false, hasName] at h ⊢
          cases hx : (decide (e.name = x)) with
          | true => simp [hx]
          | false =>
              rw [hx] at h
              simp only [Bool.false_or] at h
              simp [hasName, ih h]

theorem hasName_dirsPart_imp (cs : EList) (x : String)
    (h : hasName (dirsPart cs) x = true) : hasName cs x = true := by
  induction cs using elistInd with
  | hnil => simpa [dirsPart] using h
  | hcons e es ih =>
      cases he : e.isDir with
      | false =>
          rw [dirsPart] at h
          rw [he] at h
          simp only [Bool.false_eq_true, if_false, ite_false] at h
          simp [hasName, ih h]
      | true =>
          rw [dirsPart] at h
          rw [he] at h
          simp only [if_true, ite_true, hasName] at h ⊢
          cases hx : (decide (e.name = x)) with
          | true => simp [hx]
          | false =>
              rw [hx] at h
              simp only [Bool.false_or] at h
              simp [hasName, ih h]

theorem wfE_name_sepFree (e : Entry) (h : wfE e = true) : sepFree e.name = true := by
  cases e with
  | file n => simpa [wfE, Entry.name] using h
  | dir n cs => exact (wfE_dir_parts n cs h).1

theorem hasName_dirsPart_sepFree (cs : EList) (m : String) (hwl : wfL cs = true)
    (h : hasName (dirsPart cs) m = true) : sepFree m = true := by
  induction cs using elistInd with
  | hnil => simp [dirsPart, hasName] at h
  | hcons e es ih =>
      have hwp := wfL_parts e es hwl
      cases he : e.isDir with
      | false =>
          rw [dirsPart] at h
          rw [he] at h
          simp only [Bool.false_eq_true, if_false, ite_false] at h
          exact ih hwp.2 h
      | true =>
          rw [dirsPart] at h
          rw [he] at h
          simp only [if_true, ite_true, hasName] at h
          cases hx : (decide (e.name = m)) with
          | true =>
              have : e.name = m := of_decide_eq_true hx
              rw [← this]
              exact wfE_name_sepFree e hwp.1
          | false =>
              rw [hx] at h
              simp at h
              exact ih hwp.2 (by simpa using h)

theorem dirsPart_filesPart_disjoint (cs : EList) (hnd : nodupNames cs = true) (x : String)
    (hx : hasName (dirsPart cs) x = true) : hasName (filesPart cs) x = false := by
  induction cs using elistInd with
  | hnil => simp [dirsPart, hasName] at hx
  | hcons e es ih =>
      have hph := nodupNames_parts e es hnd
      cases he : e.isDir with
      | true =>
          rw [dirsPart] at hx
          rw [he] at hx
          rw [filesPart, he]
          simp only [if_true, ite_true, hasName] at hx ⊢
          cases hd : (decide (e.name = x)) with
          | true =>
              have hex : e.name = x := of_decide_eq_true hd
              cases hf : hasName (filesPart es) x with
              | false => rfl
              | true =>
                  exfalso
                  have h2 := hasName_filesPart_imp es x hf
                  rw [← hex] at h2
                  rw [hph.1] at h2
                  cases h2
          | false =>
              rw [hd] at hx
              simp only [Bool.false_or] at hx
              exact ih hph.2 hx
      | false =>
          rw [dirsPart] at hx
          rw [he] at hx
          rw [filesPart, he]
          simp only [Bool.false_eq_true, if_false, ite_false, hasName] at hx ⊢
          have h2 := hasName_dirsPart_imp es x hx
          have hne : ¬ e.name = x := by
            intro hh
            rw [hh] at hph
            rw [hph.1] at h2
            cases h2
          simp [hne, ih hph.2 hx]

theorem foldl_files (cs : EList) : ∀ acc : EList,
    nodupNames cs = true →
    (∀ x, hasName cs x = true → hasName acc x = false) →
    (fileNames cs).foldl (fun l fn => dictInsert l (.file fn)) acc
      = appendE acc (filesPart cs) := by
  induction cs using elistInd with
  | hnil =>
      intro acc _ _
      simp [fileNames, filesPart, appendE_nil]
  | hcons e es ih =>
      intro acc hnd hacc
      have hph := nodupNames_parts e es hnd
      cases e with
      | dir n cs2 =>
          simp only [fileNames, filesPart, Entry.isDir, if_true, ite_true, List.nil_append]
          exact ih acc hph.2 (fun x hx => hacc x (by simp [hasName, hx]))
      | file nm =>
          simp only [fileNames, filesPart, Entry.isDir, Entry.name, Bool.false_eq_true,
            if_false, ite_false, List.singleton_append, List.foldl_cons]
          have hnm : hasName acc nm = false := hacc nm (by simp [hasName, Entry.name])
          rw [dictInsert_of_not_hasName acc (.file nm) hnm]
          rw [ih (appendE acc (.cons (.file nm) .nil)) hph.2 ?_]
          · rw [appendE_assoc]
            rfl
          · intro x hx
            rw [hasName_appendE]
            have h1 : hasName acc x = false := hacc x (by simp [hasName, hx])
            have h2 : ¬ nm = x := by
              intro hh
              have h3 := hph.1
              simp only [Entry.name] at h3
              rw [hh] at h3
              rw [h3] at hx
              cases hx
            simp [h1, hasName, h2, Entry.name]

mutual
theorem loadDir_save (ST : JVal) (e : Entry) (p : String) (fuel : Nat)
    (hwf : wfE e = true) (hd : e.isDir = true) (hfuel : needE e ≤ fuel)
    (H : ∀ (m : String) (q : List String), sepFree m = true →
      (∀ x ∈ q, sepFree x = true) →
      jField ST (joinRel p (m :: q))
        = (dirAt e (m :: q)).map (fun d => encodeRec (recOf (childrenD d)))) :
    loadDir ST fuel p e.name (encodeRec (recOf (childrenD e))) = some (regroupE e) := by
  cases e with
  | file nf => simp [Entry.isDir] at hd
  | dir n cs =>
      obtain ⟨hsn, hnd, hwl⟩ := wfE_dir_parts n cs hwf
      cases fuel with
      | zero =>
          exfalso
          simp [needE] at hfuel
      | succ f =>
          have hfl : needL cs ≤ f := by
            simp only [needE] at hfuel
            omega
          simp only [childrenD, loadDir, jField_encodeRec_files, jField_encodeRec_dirs,
            jStrList, recOf, strElems_map]
          rw [foldl_files cs EList.nil hnd (fun x _ => rfl)]
          rw [loadDirs_save ST cs p f hwl hnd hfl
            (fun m q hmem hq => H m q (hasName_dirsPart_sepFree cs m hwl hmem) hq)
            (appendE EList.nil (filesPart cs))
            (fun x hx => dirsPart_filesPart_disjoint cs hnd x hx)]
          rfl
theorem loadDirs_save (ST : JVal) (ds : EList) (p : String) (fuel : Nat)
    (hwl : wfL ds = true) (hnd : nodupNames ds = true) (hfuel : needL ds ≤ fuel)
    (H : ∀ (m : String) (q : List String), hasName (dirsPart ds) m = true →
      (∀ x ∈ q, sepFree x = true) →
      jField ST (joinRel p (m :: q))
        = (match findDir ds m with
           | some d => dirAt d q
           | none => none).map (fun d => encodeRec (recOf (childrenD d)))) :
    ∀ acc : EList, (∀ x, hasName (dirsPart ds) x = true → hasName acc x = false) →
      loadDirs ST fuel p (dirNames ds) acc = some (appendE acc (regroupDirs ds)) := by
  cases ds with
  | nil =>
      intro acc _
      cases fuel with
      | zero => exfalso; simp [needL] at hfuel
      | succ f => simp [dirNames, loadDirs, regroupDirs, appendE_nil]
  | cons e es =>
      intro acc hacc
      have hph := nodupNames_parts e es hnd
      have hwp := wfL_parts e es hwl
      cases e with
      | file nf =>
          have hfes : needL es ≤ fuel := by
            simp only [needL, Entry.isDir, Bool.false_eq_true, if_false, ite_false] at hfuel
            exact hfuel
          have Hes : ∀ (m : String) (q : List String), hasName (dirsPart es) m = true →
              (∀ x ∈ q, sepFree x = true) →
              jField ST (joinRel p (m :: q))
                = (match findDir es m with
                   | some d => dirAt d q
                   | none => none).map (fun d => encodeRec (recOf (childrenD d))) := by
            intro m q hmem hq
            have hm_es : hasName es m = true := hasName_dirsPart_imp es m hmem
            have hne : ¬ (Entry.name (.file nf)) = m := by
              intro hh
              rw [hh] at hph
              rw [hph.1] at hm_es
              cases hm_es
            have hmem2 : hasName (dirsPart (.cons (.file nf) es)) m = true := by
              rw [dirsPart]
              simp only [Entry.isDir, Bool.false_eq_true, if_false, ite_false]
              exact hmem
            have hcons := H m q hmem2 hq
            rw [findDir_cons_ne (.file nf) es m hne] at hcons
            exact hcons
          have hres := loadDirs_save ST es p fuel hwp.2 hph.2 hfes Hes acc
            (fun x hx => hacc x (by
              rw [dirsPart]
              simp only [Entry.isDir, Bool.false_eq_true, if_false, ite_false]
              exact hx))
          show loadDirs ST fuel p (dirNames (.cons (.file nf) es)) acc
            = some (appendE acc (regroupDirs (.cons (.file nf) es)))
          rw [dirNames]
          simp only [Entry.isDir, Bool.false_eq_true, if_false, ite_false, List.nil_append]
          rw [hres]
          rw [regroupDirs]
          simp only [Entry.isDir, Bool.false_eq_true, if_false, ite_false]
      | dir w csw =>
          cases fuel with
          | zero =>
              exfalso
              simp only [needL, Entry.isDir, if_true, ite_true] at hfuel
              omega
          | succ f =>
              have hfE : needE (.dir w csw) ≤ f := by
                simp only [needL, Entry.isDir, if_true, ite_true] at hfuel
                omega
              have hfL : needL es ≤ f := by
                simp only [needL, Entry.isDir, if_true, ite_true] at hfuel
                omega
              have hmemw : hasName (dirsPart (.cons (.dir w csw) es)) w = true := by
                rw [dirsPart]
                simp [Entry.isDir, hasName, Entry.name]
              -- the record of the head child sits under p/w
              have hW := H w [] hmemw (by intro x hx; simp at hx)
              rw [findDir_cons_dir_self w csw es] at hW
              rw [joinRel_single] at hW
              simp only [dirAt, Option.map_some', childrenD] at hW
              -- the head child loads to its regrouping
              have Hchild : ∀ (m2 : String) (q2 : List String), sepFree m2 = true →
                  (∀ x ∈ q2, sepFree x = true) →
                  jField ST (joinRel (p ++ PATH_SEPARATOR ++ w) (m2 :: q2))
                    = (dirAt (.dir w csw) (m2 :: q2)).map
                        (fun d => encodeRec (recOf (childrenD d))) := by
                intro m2 q2 hm2 hq2
                have hq12 : ∀ x ∈ (m2 :: q2), sepFree x = true := by
                  intro x hx
                  cases hx with
                  | head => exact hm2
                  | tail _ hx2 => exact hq2 x hx2
                have hcons := H w (m2 :: q2) hmemw hq12
                rw [findDir_cons_dir_self w csw es] at hcons
                rw [joinRel_cons p w (m2 :: q2) (List.cons_ne_nil m2 q2)] at hcons
                exact hcons
              have hchild := loadDir_save ST (.dir w csw) (p ++ PATH_SEPARATOR ++ w) f
                hwp.1 rfl hfE Hchild
              simp only [Entry.name, childrenD] at hchild
              -- the sibling recursion
              have Hes : ∀ (m : String) (q : List String), hasName (dirsPart es) m = true →
                  (∀ x ∈ q, sepFree x = true) →
                  jField ST (joinRel p (m :: q))
                    = (match findDir es m with
                       | some d => dirAt d q
                       | none => none).map (fun d => encodeRec (recOf (childrenD d))) := by
                intro m q hmem hq
                have hm_es : hasName es m = true := hasName_dirsPart_imp es m hmem
                have hne : ¬ (Entry.name (.dir w csw)) = m := by
                  intro hh
                  rw [hh] at hph
                  rw [hph.1] at hm_es
                  cases hm_es
                have hmem2 : hasName (dirsPart (.cons (.dir w csw) es)) m = true := by
                  rw [dirsPart]
                  simp only [Entry.isDir, if_true, ite_true, hasName]
                  simp [hmem]
                have hcons := H m q hmem2 hq
                rw [findDir_cons_ne (.dir w csw) es m hne] at hcons
                exact hcons
              have hnacc : hasName acc w = false := hacc w hmemw
              have hacc2 : ∀ x, hasName (dirsPart es) x = true →
                  hasName (appendE acc (.cons (regroupE (.dir w csw)) .nil)) x = false := by
                intro x hx
                rw [hasName_appendE]
                have h1 : hasName acc x = false := hacc x (by
                  rw [dirsPart]
                  simp only [Entry.isDir, if_true, ite_true, hasName]
                  simp [hx])
                have hm_es : hasName es x = true := hasName_dirsPart_imp es x hx
                have hne : ¬ w = x := by
                  intro hh
                  have h3 := hph.1
                  simp only [Entry.name] at h3
                  rw [hh] at h3
                  rw [h3] at hm_es
                  cases hm_es
                simp [h1, hasName, regroupE_name, regroupE, Entry.name, hne]
              have hres := loadDirs_save ST es p f hwp.2 hph.2 hfL Hes
                (appendE acc (.cons (regroupE (.dir w csw)) .nil)) hacc2
              -- assemble
              show loadDirs ST (f + 1) p (dirNames (.cons (.dir w csw) es)) acc
                = some (appendE acc (regroupDirs (.cons (.dir w csw) es)))
              rw [dirNames]
              simp only [Entry.isDir, Entry.name, if_true, ite_true, List.singleton_append]
              rw [loadDirs]
              rw [hW]
              simp only
              rw [hchild]
              simp only
              rw [dictInsert_of_not_hasName acc (regroupE (.dir w csw)) (by
                rw [regroupE_name]
                exact hnacc)]
              rw [hres]
              rw [regroupDirs]
              simp only [Entry.isDir, if_true, ite_true]
              rw [appendE_assoc]
              rfl
end

/- ## Round trip: the fuel bound and the assembled claim -/

theorem saveEntry_length_pos (e : Entry) (p : String) (hd : e.isDir = true) :
    1 ≤ (saveEntry p e).length := by
  cases e with
  | file nf => simp [Entry.isDir] at hd
  | dir n cs => simp [saveEntry]

mutual
theorem needE_le_save (e : Entry) (p : String) (hd : e.isDir = true) :
    needE e ≤ 3 * (saveEntry p e).length := by
  cases e with
  | file nf => simp [Entry.isDir] at hd
  | dir n cs =>
      have h := needL_le_save cs p
      simp only [needE, saveEntry, List.length_cons]
      omega
theorem needL_le_save (cs : EList) (p : String) :
    needL cs ≤ 3 * (saveChildren p cs).length + 2 := by
  cases cs with
  | nil => simp [needL, saveChildren]
  | cons e es =>
      have hes := needL_le_save es p
      cases he : e.isDir with
      | false =>
          simp only [needL, saveChildren, he, Bool.false_eq_true, if_false, ite_false,
            List.nil_append]
          omega
      | true =>
          have hE := needE_le_save e (p ++ PATH_SEPARATOR ++ e.name) he
          have hpos := saveEntry_length_pos e (p ++ PATH_SEPARATOR ++ e.name) he
          simp only [needL, saveChildren, he, if_true, ite_true, List.length_append]
          have h1 : max (needE e) (needL es)
              ≤ 3 * ((saveEntry (p ++ PATH_SEPARATOR ++ e.name) e).length
                + (saveChildren p es).length) + 1 := by
            apply Nat.max_le.mpr
            constructor <;> omega
          omega
end

theorem getDir_nil (e : Entry) : getDir e [] = some e := by
  cases e <;> rfl

theorem runCommand_lsr (x : Entry) :
    (runCommand "ls -r" (⟨x, []⟩ : Sys)).1 = joinWith "\n" (lsVisit [x.name] x) := by
  have hsplit : splitStr ' ' (pyStrip "ls -r") = ["ls", "-r"] := rfl
  have hval : lsValidate ["-r"] = .ok (true, false, "") := rfl
  have h1 : cwdEntryD (⟨x, []⟩ : Sys) = x := by simp [cwdEntryD, getDir_nil]
  simp [runCommand, hsplit, dispatch, lsRun, hval, h1]

/-- C5 (amended): for every tree of valid names in which no name contains the
path separator, saving the snapshot and loading it into a fresh system yields
`ls -r` output identical to the original system's — files keep their relative
order, directories keep theirs, and the listing is insensitive to the codec's
files-before-directories regrouping.  (A name containing the separator, which
the creation commands accept, can make two directories share a snapshot key
and break the round trip: see the counterexample.) -/
theorem c5_roundtrip (cs : EList) (t : Entry) (ht : t = .dir "root" cs)
    (hwf : wfE t = true) :
    ∃ t2, systemLoad (.parsed (encodeState (saveSys ⟨t, []⟩))) = .ok t2 ∧
      (runCommand "ls -r" (⟨t2, []⟩ : Sys)).1 = (runCommand "ls -r" (⟨t, []⟩ : Sys)).1 := by
  subst ht
  refine ⟨regroupE (.dir "root" cs), ?_, ?_⟩
  · have hroot : jField (encodeState (saveEntry "root" (.dir "root" cs))) "root"
        = some (encodeRec (recOf cs)) := by
      rw [jField_encodeState, saveEntry_get_base]
      rfl
    have hfuel : needE (Entry.dir "root" cs)
        ≤ loadFuel (encodeState (saveEntry "root" (.dir "root" cs))) := by
      have h1 := needE_le_save (.dir "root" cs) "root" rfl
      have h2 : loadFuel (encodeState (saveEntry "root" (.dir "root" cs)))
          = 3 * (saveEntry "root" (.dir "root" cs)).length + 3 := by
        simp [loadFuel, encodeState, List.length_map]
      omega
    have H : ∀ (m : String) (q : List String), sepFree m = true →
        (∀ x ∈ q, sepFree x = true) →
        jField (encodeState (saveEntry "root" (.dir "root" cs))) (joinRel "root" (m :: q))
          = (dirAt (.dir "root" cs) (m :: q)).map
              (fun d => encodeRec (recOf (childrenD d))) := by
      intro m q hm hq
      rw [jField_encodeState]
      rw [saveEntry_get_below (.dir "root" cs) "root" hwf rfl m q hm hq]
      rw [Option.map_map]
      rfl
    have hload := loadDir_save (encodeState (saveEntry "root" (.dir "root" cs)))
      (.dir "root" cs) "root" (loadFuel (encodeState (saveEntry "root" (.dir "root" cs))))
      hwf rfl hfuel H
    simp only [Entry.name, childrenD] at hload
    show systemLoad (.parsed (encodeState (saveEntry "root" (.dir "root" cs))))
      = .ok (regroupE (.dir "root" cs))
    simp only [systemLoad]
    rw [hroot]
    simp only
    rw [hload]
  · rw [runCommand_lsr, runCommand_lsr, regroupE_name, lsVisit_regroup]

/-- C5 witness: the amended round trip at a concrete interleaved tree. -/
theorem c5_roundtrip_witness :
    ∃ t2, systemLoad (.parsed (encodeState (saveSys
        ⟨.dir "root" (.cons (.dir "a" (.cons (.file "g") .nil)) (.cons (.file "f") .nil)),
          []⟩)))
      = .ok t2 ∧
      (runCommand "ls -r" (⟨t2, []⟩ : Sys)).1
        = (runCommand "ls -r"
            (⟨.dir "root" (.cons (.dir "a" (.cons (.file "g") .nil)) (.cons (.file "f") .nil)),
              []⟩ : Sys)).1 :=
  c5_roundtrip (.cons (.dir "a" (.cons (.file "g") .nil)) (.cons (.file "f") .nil))
    (.dir "root" (.cons (.dir "a" (.cons (.file "g") .nil)) (.cons (.file "f") .nil)))
    rfl (by decide)

/-- C5 counterexample: the command-built tree with the literal name `a/b`
(reachable by the commands shown) saves two records under the key
`root/a/b`; the later one wins on load, so the fresh system's `ls -r` output
loses `/root/a/b/c` and differs from the original's. -/
theorem c5_counterexample :
    (runList ["mkdir a", "cd a", "mkdir b", "cd b", "mkdir c", "cd -mf ../..", "mkdir a/b"]
        emptySys = ⟨slashTree, []⟩) ∧
    (match systemLoad (.parsed (encodeState (saveSys ⟨slashTree, []⟩))) with
     | .ok t2 => (runCommand "ls -r" (⟨t2, []⟩ : Sys)).1
     | .raised => "raised"
     | .empty => "empty") ≠ (runCommand "ls -r" (⟨slashTree, []⟩ : Sys)).1 :=
  ⟨rfl, by decide⟩
